import Mathlib

/-!
Verification of the clipboard-history plugin (src/plugin.h, src/plugin.cpp).

The embedding models the History Store and Search Engine:

* A clipboard entry holds a text and a capture timestamp.  QDateTime is an
  instant with millisecond resolution, so timestamps are modelled as an
  integer count of milliseconds since the epoch.
* The plugin state consists of the entry list (most recent first, matching
  the std list in the source), the history limit, and the last accepted
  clipboard text (the field clipboard_text in the source).
* checkClipboard (plugin.cpp lines 220-242) is split, as in the source text,
  into the ingestion filter (the early-return guard plus the clipboard_text
  update) and the store insertion (remove duplicates, emplace_front,
  truncate to the limit).
* setHistoryLimit models plugin.cpp lines 196-207, removeText the remove
  action of plugin.cpp lines 141-148, and items the rank-assigning result
  loop of plugin.cpp lines 109-171.
* saveHistory and loadHistory model the destructor and constructor
  persistence paths (seconds-since-epoch serialisation of each entry, in
  history order; the load path narrows the stored seconds through
  QJsonValue toInt, which returns 0 for values outside the 32-bit int
  range).
-/

/-- A captured clipboard value: text plus capture timestamp.  The timestamp
is milliseconds since the epoch, the resolution of QDateTime. -/
structure ClipboardEntry where
  text : String
  datetime : Int
deriving DecidableEq, Repr

/-- The mutable plugin state relevant to the claims: the history list (most
recent entry first), the configured history limit, and the last accepted
clipboard text (the member clipboard_text of the source class). -/
structure PluginState where
  history : List ClipboardEntry
  history_limit : Nat
  clipboard_text : String
deriving DecidableEq, Repr

/-- A fresh state with an empty history, a given limit and no last accepted
text. -/
def emptyState (limit : Nat) : PluginState :=
  { history := [], history_limit := limit, clipboard_text := "" }

/-- The store-insertion part of Plugin.checkClipboard (plugin.cpp lines
229-242): erase every entry whose text equals the new text, prepend the new
entry, then resize down to the history limit when it is exceeded. -/
def insertEntry (e : ClipboardEntry) (st : PluginState) : PluginState :=
  let h := e :: st.history.filter (fun ce => ce.text != e.text)
  { st with history := if st.history_limit < h.length then h.take st.history_limit else h }

/-- The ingestion filter of Plugin.checkClipboard (plugin.cpp lines
222-227): reject when the trimmed candidate is empty or the candidate
equals the last accepted text; on acceptance produce the capture and
update the last accepted text.  Returns the optional capture together with
the new last-accepted state. -/
def observe (candidate lastAccepted : String) (now : Int) :
    Option ClipboardEntry × String :=
  if candidate.trim.isEmpty || candidate == lastAccepted then (none, lastAccepted)
  else (some { text := candidate, datetime := now }, candidate)

/-- Plugin.checkClipboard (plugin.cpp lines 220-242) as a whole: the
ingestion filter followed, on acceptance, by the store insertion. -/
def checkClipboard (text : String) (now : Int) (st : PluginState) : PluginState :=
  match observe text st.clipboard_text now with
  | (none, _) => st
  | (some e, accepted) => insertEntry e { st with clipboard_text := accepted }

/-- Plugin.setHistoryLimit (plugin.cpp lines 196-207): when the new value
differs from the stored one, store it and truncate the history if it is now
longer than the limit; when the value is unchanged, do nothing at all. -/
def setHistoryLimit (v : Nat) (st : PluginState) : PluginState :=
  if v != st.history_limit then
    let st := { st with history_limit := v }
    if st.history_limit < st.history.length then
      { st with history := st.history.take st.history_limit }
    else st
  else st

/-- The remove action of Plugin.items (plugin.cpp lines 141-148):
remove_if over the history, dropping every entry whose text equals the
given text. -/
def removeText (t : String) (st : PluginState) : PluginState :=
  { st with history := st.history.filter (fun ce => ce.text != t) }

/-- The result loop of Plugin.items (plugin.cpp lines 115-167): walk the
history, incrementing the rank for every entry, and emit an item for
each entry the matcher accepts, tagged with the rank it had at that point.
The matcher is the external albert Matcher, passed in as a predicate. -/
def itemsAux (matchP : String → Bool) : List ClipboardEntry → Nat → List (Nat × ClipboardEntry)
  | [], _ => []
  | e :: rest, rank =>
      if matchP e.text then (rank + 1, e) :: itemsAux matchP rest (rank + 1)
      else itemsAux matchP rest (rank + 1)

/-- Plugin.items (plugin.cpp lines 109-171) restricted to its pure content:
the matching entries with their ranks, the rank counter starting at zero. -/
def items (matchP : String → Bool) (history : List ClipboardEntry) :
    List (Nat × ClipboardEntry) :=
  itemsAux matchP history 0

/-- Substring containment on character lists: true when the needle occurs
contiguously inside the haystack. -/
def hasInfix (needle : List Char) : List Char → Bool
  | [] => needle.isEmpty
  | c :: rest => needle.isPrefixOf (c :: rest) || hasInfix needle rest

/-- Modelled from the spec: the external Matcher collaborator
(albert/matcher.h is not part of this repository).  Per spec section 4.3,
with fuzzy off it matches exactly when the query is empty or is contained
in the entry text as a substring. -/
def exactMatch (query text : String) : Bool :=
  query.isEmpty || hasInfix query.data text.data

/-- The serialisation step of the destructor (plugin.cpp lines 82-89): one
record per entry, in history order, carrying the text and the timestamp
converted to whole seconds since the epoch (QDateTime toSecsSinceEpoch,
C++ integer division truncating toward zero). -/
def saveHistory (h : List ClipboardEntry) : List (String × Int) :=
  h.map (fun e => (e.text, e.datetime.tdiv 1000))

/-- QJsonValue toInt as called at plugin.cpp line 59: a stored whole number
is returned only when it is representable as a 32-bit int; any other value
yields the default 0.  The destructor writes the seconds as a qint64, so a
saved value outside the int range is read back as 0. -/
def jsonToInt (s : Int) : Int :=
  if -2147483648 ≤ s ∧ s ≤ 2147483647 then s else 0

/-- The deserialisation loop of the constructor (plugin.cpp lines 54-60):
each record is appended in order as an entry whose timestamp is the stored
seconds value narrowed through QJsonValue toInt (out-of-int-range values
become 0), then widened by QDateTime fromSecsSinceEpoch (milliseconds =
1000 times the seconds).  No deduplication and no truncation happen here. -/
def loadHistory (records : List (String × Int)) : List ClipboardEntry :=
  records.map (fun r => { text := r.1, datetime := jsonToInt r.2 * 1000 })

/-- A mutating history operation: a store insertion or a limit change. -/
inductive HistoryOp where
  | ins (e : ClipboardEntry)
  | setLimit (v : Nat)
deriving DecidableEq, Repr

/-- Apply one mutating operation to the state. -/
def applyOp (st : PluginState) : HistoryOp → PluginState
  | HistoryOp.ins e => insertEntry e st
  | HistoryOp.setLimit v => setHistoryLimit v st

/-- Apply a sequence of mutating operations, oldest first. -/
def runOps (ops : List HistoryOp) (st : PluginState) : PluginState :=
  ops.foldl applyOp st

/-- Invariant A of the spec: no two entries of the history share a text. -/
abbrev TextsDistinct (h : List ClipboardEntry) : Prop :=
  h.Pairwise (fun a b => a.text ≠ b.text)

/-- Invariant B of the spec: the history length is bounded by the limit. -/
abbrev BoundInv (st : PluginState) : Prop :=
  st.history.length ≤ st.history_limit

/-- Helper: an insertion leaves no text of the removed duplicates behind,
so the filtered tail contains no entry with the inserted text. -/
theorem countP_filter_ne_zero (e : ClipboardEntry) (l : List ClipboardEntry) :
    (l.filter (fun ce => ce.text != e.text)).countP (fun c => c.text == e.text) = 0 := by
  rw [List.countP_eq_zero]
  intro a ha
  rw [List.mem_filter] at ha
  simpa using ha.2

/-- Helper: a store insertion preserves pairwise distinct texts. -/
theorem insertEntry_textsDistinct (e : ClipboardEntry) (st : PluginState)
    (hd : TextsDistinct st.history) : TextsDistinct (insertEntry e st).history := by
  have hf : TextsDistinct (st.history.filter (fun ce => ce.text != e.text)) :=
    hd.filter _
  have hcons : TextsDistinct (e :: st.history.filter (fun ce => ce.text != e.text)) := by
    refine List.Pairwise.cons ?_ hf
    intro b hb
    rw [List.mem_filter] at hb
    have : b.text ≠ e.text := by simpa using hb.2
    exact fun h => this h.symm
  unfold insertEntry
  dsimp only
  split
  · exact List.Pairwise.sublist (List.take_sublist _ _) hcons
  · exact hcons

/-- Helper: a store insertion always re-establishes the length bound. -/
theorem insertEntry_bound (e : ClipboardEntry) (st : PluginState) :
    BoundInv (insertEntry e st) := by
  unfold insertEntry BoundInv
  dsimp only
  split
  · simp [List.length_take]
  · omega

/-- Helper: a limit change to a genuinely new value re-establishes the
length bound. -/
theorem setHistoryLimit_bound_of_ne (v : Nat) (st : PluginState)
    (hne : v ≠ st.history_limit) : BoundInv (setHistoryLimit v st) := by
  unfold setHistoryLimit BoundInv
  simp only [bne_iff_ne, ne_eq, hne, not_false_eq_true, if_true]
  split
  · simp [List.length_take]
  · rename_i h
    simp only [not_lt] at h
    simpa using h

/-- Helper: a limit change preserves the length bound. -/
theorem setHistoryLimit_bound (v : Nat) (st : PluginState)
    (hB : BoundInv st) : BoundInv (setHistoryLimit v st) := by
  by_cases hne : v = st.history_limit
  · unfold setHistoryLimit
    simp only [bne_iff_ne, ne_eq, hne, not_true_eq_false, if_false]
    simpa [hne] using hB
  · exact setHistoryLimit_bound_of_ne v st hne

/-- Helper: the items loop over any tail, with any starting rank, returns
exactly the matching entries with their one-based positions counted from
that starting rank. -/
theorem itemsAux_eq_enumFrom (p : String → Bool) :
    ∀ (l : List ClipboardEntry) (n : Nat),
      itemsAux p l n = (List.enumFrom (n + 1) l).filter (fun x => p x.2.text)
  | [], _ => rfl
  | e :: rest, n => by
      by_cases h : p e.text
      · simp [itemsAux, List.enumFrom, List.filter_cons, h,
              itemsAux_eq_enumFrom p rest (n + 1)]
      · simp [itemsAux, List.enumFrom, List.filter_cons, h,
              itemsAux_eq_enumFrom p rest (n + 1)]

/-- C1: when an entry with text T is already present and the limit is
positive, inserting a fresh entry with text T and a new timestamp yields a
history whose front (index 0) is exactly the new entry, and which contains
exactly one entry of text T; the old position and timestamp are gone. -/
theorem insert_dedup_moves_to_front (e : ClipboardEntry) (st : PluginState)
    (hlim : 1 ≤ st.history_limit)
    (hmem : ∃ old ∈ st.history, old.text = e.text) :
    (insertEntry e st).history.head? = some e
    ∧ (insertEntry e st).history.countP (fun c => c.text == e.text) = 1 := by
  have hf0 := countP_filter_ne_zero e st.history
  unfold insertEntry
  dsimp only
  split
  · rename_i hlt
    obtain ⟨m, hm⟩ : ∃ m, st.history_limit = m + 1 := ⟨st.history_limit - 1, by omega⟩
    rw [hm, List.take_succ_cons]
    refine ⟨rfl, ?_⟩
    have htake : (List.take m (st.history.filter (fun ce => ce.text != e.text))).countP
        (fun c => c.text == e.text) = 0 := by
      rw [List.countP_eq_zero]
      intro a ha
      have ha2 := List.take_subset m _ ha
      rw [List.mem_filter] at ha2
      simpa using ha2.2
    rw [List.countP_cons_of_pos _ _ (by simp), htake]
  · refine ⟨rfl, ?_⟩
    rw [List.countP_cons_of_pos _ _ (by simp), hf0]

/-- Witness for C1 at a concrete input: a one-entry history containing T
with limit 2, re-inserting T with a later timestamp. -/
theorem insert_dedup_moves_to_front_witness :
    (insertEntry ⟨"T", 5000⟩ ⟨[⟨"T", 0⟩], 2, ""⟩).history.head? = some ⟨"T", 5000⟩
    ∧ (insertEntry ⟨"T", 5000⟩ ⟨[⟨"T", 0⟩], 2, ""⟩).history.countP
        (fun c => c.text == "T") = 1 :=
  insert_dedup_moves_to_front ⟨"T", 5000⟩ ⟨[⟨"T", 0⟩], 2, ""⟩ (by decide)
    ⟨⟨"T", 0⟩, by simp⟩

/-- C2: starting from the empty history, after any sequence of store
insertions no two entries of the history share a text (Invariant A). -/
theorem inserts_preserve_uniqueness (es : List ClipboardEntry) (limit : Nat) :
    TextsDistinct ((es.foldl (fun st e => insertEntry e st) (emptyState limit)).history) := by
  suffices h : ∀ (st : PluginState), TextsDistinct st.history →
      TextsDistinct ((es.foldl (fun st e => insertEntry e st) st).history) by
    exact h (emptyState limit) List.Pairwise.nil
  induction es with
  | nil => intro st hst; exact hst
  | cons e rest ih =>
      intro st hst
      exact ih (insertEntry e st) (insertEntry_textsDistinct e st hst)

/-- C3: starting from the empty history, after any sequence of insertions
and limit changes (each requested limit positive) the history length stays
bounded by the current limit (Invariant B). -/
theorem ops_preserve_bound (ops : List HistoryOp) (limit : Nat)
    (hpos : ∀ v, HistoryOp.setLimit v ∈ ops → 1 ≤ v) :
    BoundInv (runOps ops (emptyState limit)) := by
  suffices h : ∀ (st : PluginState), BoundInv st → BoundInv (runOps ops st) by
    exact h (emptyState limit) (by simp [emptyState, BoundInv])
  clear hpos
  unfold runOps
  induction ops with
  | nil => intro st hst; exact hst
  | cons op rest ih =>
      intro st hst
      have hstep : BoundInv (applyOp st op) := by
        cases op with
        | ins e => exact insertEntry_bound e st
        | setLimit v => exact setHistoryLimit_bound v st hst
      exact ih (applyOp st op) hstep

/-- Witness for C3 at a concrete input: an insertion followed by lowering
the limit to 1. -/
theorem ops_preserve_bound_witness :
    BoundInv (runOps [HistoryOp.ins ⟨"a", 0⟩, HistoryOp.setLimit 1] (emptyState 2)) :=
  ops_preserve_bound [HistoryOp.ins ⟨"a", 0⟩, HistoryOp.setLimit 1] 2
    (by intro v hv; simp at hv; omega)

/-- C4 counterexample: over the history [x, foo] with the exact query foo,
the single returned item carries rank 2 (its position in the history), not
the consecutive rank 1 the claim requires for the first returned entry. -/
theorem items_consecutive_rank_counterexample :
    items (fun t => exactMatch "foo" t) [⟨"x", 0⟩, ⟨"foo", 0⟩] = [(2, ⟨"foo", 0⟩)]
    ∧ (2 : Nat) ≠ 1 := by
  constructor
  · rfl
  · decide

/-- C4 (amended): search returns exactly the matching entries, in stored
(recency-descending) order, and each returned entry carries as rank its
one-based position in the full history, not its position among the
results; the ranks are strictly increasing but need not be consecutive. -/
theorem items_rank_is_history_position (p : String → Bool) (h : List ClipboardEntry) :
    items p h = (List.enumFrom 1 h).filter (fun x => p x.2.text) :=
  itemsAux_eq_enumFrom p h 0

/-- C5 counterexample: with a stored limit of 2 and an over-long history of
three entries (reachable by loading persisted state), a limit change to the
same value 2 is a no-op and does not truncate to the first two entries. -/
theorem setHistoryLimit_noop_counterexample :
    (setHistoryLimit 2 ⟨[⟨"A", 5000⟩, ⟨"B", 4000⟩, ⟨"C", 3000⟩], 2, ""⟩).history
      ≠ [(⟨"A", 5000⟩ : ClipboardEntry), ⟨"B", 4000⟩, ⟨"C", 3000⟩].take
          (min ([(⟨"A", 5000⟩ : ClipboardEntry), ⟨"B", 4000⟩, ⟨"C", 3000⟩].length) 2) := by
  decide

/-- C5 (amended): for every new limit of at least 1 that differs from the
stored limit, or whenever the history already satisfies the length bound,
the limit change keeps exactly the first min(length, new_limit) entries in
unchanged order, dropping only from the tail; when the new value equals the
stored limit the operation is a no-op. -/
theorem setHistoryLimit_truncates_tail (v : Nat) (st : PluginState)
    (hpos : 1 ≤ v)
    (hok : v ≠ st.history_limit ∨ st.history.length ≤ st.history_limit) :
    (setHistoryLimit v st).history = st.history.take (min st.history.length v) := by
  by_cases hv : v = st.history_limit
  · subst hv
    have hlen : st.history.length ≤ st.history_limit := by
      rcases hok with h | h
      · exact absurd rfl h
      · exact h
    unfold setHistoryLimit
    simp only [bne_self_eq_false, Bool.false_eq_true, if_false]
    rw [min_eq_left hlen, List.take_length]
  · unfold setHistoryLimit
    simp only [bne_iff_ne, ne_eq, hv, not_false_eq_true, if_true]
    split
    · rename_i hlt
      have hlt2 : v < st.history.length := hlt
      show st.history.take v = st.history.take (min st.history.length v)
      rw [min_eq_right (le_of_lt hlt2)]
    · rename_i hge
      have hge2 : ¬ (v < st.history.length) := hge
      show st.history = st.history.take (min st.history.length v)
      rw [min_eq_left (by omega), List.take_length]

/-- Witness for C5 at a concrete input: lowering the limit from 100 to 2
over a three-entry history keeps the first two entries. -/
theorem setHistoryLimit_truncates_tail_witness :
    (setHistoryLimit 2 ⟨[⟨"A", 5000⟩, ⟨"B", 4000⟩, ⟨"C", 3000⟩], 100, ""⟩).history
      = [(⟨"A", 5000⟩ : ClipboardEntry), ⟨"B", 4000⟩, ⟨"C", 3000⟩].take
          (min ([(⟨"A", 5000⟩ : ClipboardEntry), ⟨"B", 4000⟩, ⟨"C", 3000⟩].length) 2) :=
  setHistoryLimit_truncates_tail 2 ⟨[⟨"A", 5000⟩, ⟨"B", 4000⟩, ⟨"C", 3000⟩], 100, ""⟩
    (by decide) (Or.inl (by decide))

/-- C6: the ingestion filter rejects exactly when the trimmed candidate is
empty or the candidate equals the last accepted text; on acceptance it
updates the last-accepted state to the candidate, so feeding the same
non-whitespace text twice in a row yields one accepted capture followed by
one rejection. -/
theorem observe_filter_spec (c last : String) (t1 t2 : Int) :
    ((observe c last t1).1 = none ↔ (c.trim.isEmpty = true ∨ c = last))
    ∧ ((observe c last t1).1 ≠ none → (observe c last t1).2 = c)
    ∧ (c.trim.isEmpty = false → c ≠ last →
        (observe c last t1).1 = some { text := c, datetime := t1 }
        ∧ (observe c (observe c last t1).2 t2).1 = none) := by
  by_cases h1 : c.trim.isEmpty <;> by_cases h2 : c = last <;>
    simp [observe, h1, h2]

/-- C7: with an empty query and fuzzy matching off, search returns every
entry of the history, unfiltered, in recency-descending order (each paired
with its positional rank). -/
theorem items_empty_query_browse (h : List ClipboardEntry) :
    items (fun t => exactMatch "" t) h = List.enumFrom 1 h
    ∧ (items (fun t => exactMatch "" t) h).map Prod.snd = h := by
  have hall : ∀ t, exactMatch "" t = true := by
    intro t
    simp [exactMatch, String.isEmpty]
  have key : items (fun t => exactMatch "" t) h = List.enumFrom 1 h := by
    rw [items, itemsAux_eq_enumFrom]
    simp [hall]
  exact ⟨key, by rw [key, List.enumFrom_map_snd]⟩

/-- C8 counterexample: a one-entry history captured at second 2^31 (a whole
second, so second granularity holds) saves as the seconds value 2147483648,
which QJsonValue toInt cannot represent as a 32-bit int, so the entry loads
back with timestamp 0 instead of the saved one: the round trip is not the
identity on this history. -/
theorem save_load_roundtrip_counterexample :
    loadHistory (saveHistory [⟨"X", 2147483648000⟩]) = [(⟨"X", 0⟩ : ClipboardEntry)]
    ∧ (⟨"X", (0 : Int)⟩ : ClipboardEntry) ≠ ⟨"X", 2147483648000⟩ := by
  constructor
  · decide
  · decide

/-- C8 (amended): for a history whose timestamps are whole seconds
(multiples of 1000 milliseconds) whose seconds values are representable as
32-bit ints, saving and then loading reproduces exactly the same entries,
texts, order and timestamps; outside the int range the narrowing through
QJsonValue toInt loads the timestamp as 0. -/
theorem save_load_roundtrip (h : List ClipboardEntry)
    (hsec : ∀ e ∈ h, (1000 : Int) ∣ e.datetime)
    (hrange : ∀ e ∈ h, -2147483648000 ≤ e.datetime ∧ e.datetime ≤ 2147483647000) :
    loadHistory (saveHistory h) = h := by
  induction h with
  | nil => rfl
  | cons e rest ih =>
      obtain ⟨k, hk⟩ := hsec e (List.mem_cons_self e rest)
      have hr := hrange e (List.mem_cons_self e rest)
      have hrest := ih (fun x hx => hsec x (List.mem_cons_of_mem e hx))
        (fun x hx => hrange x (List.mem_cons_of_mem e hx))
      have htdiv : e.datetime.tdiv 1000 = k := by
        rw [hk, Int.mul_tdiv_cancel_left k (by norm_num)]
      have hkb : -2147483648 ≤ k ∧ k ≤ 2147483647 := by
        rw [hk] at hr
        constructor <;> omega
      have hjson : jsonToInt (e.datetime.tdiv 1000) = k := by
        rw [htdiv]
        unfold jsonToInt
        rw [if_pos hkb]
      show ClipboardEntry.mk e.text (jsonToInt (e.datetime.tdiv 1000) * 1000)
            :: loadHistory (saveHistory rest) = e :: rest
      rw [hjson, hrest, mul_comm, ← hk]

/-- Witness for C8 at a concrete input: the two-entry history X at second
100 and Y at second 50, both seconds values well inside the int range. -/
theorem save_load_roundtrip_witness :
    loadHistory (saveHistory [⟨"X", 100000⟩, ⟨"Y", 50000⟩])
      = [⟨"X", 100000⟩, ⟨"Y", 50000⟩] :=
  save_load_roundtrip [⟨"X", 100000⟩, ⟨"Y", 50000⟩] (by decide) (by decide)

/-- C9: removing a text drops every entry carrying it (at most one under
Invariant A), leaves all other entries present in unchanged relative order,
and is a harmless no-op when the text is absent. -/
theorem removeText_spec (t : String) (st : PluginState) :
    (∀ e ∈ (removeText t st).history, e.text ≠ t)
    ∧ ((removeText t st).history.Sublist st.history)
    ∧ (∀ e ∈ st.history, e.text ≠ t → e ∈ (removeText t st).history)
    ∧ ((∀ e ∈ st.history, e.text ≠ t) → (removeText t st).history = st.history) := by
  refine ⟨?_, ?_, ?_, ?_⟩
  · intro e he
    have he2 : e ∈ st.history.filter (fun ce => ce.text != t) := he
    rw [List.mem_filter] at he2
    simpa using he2.2
  · exact List.filter_sublist st.history
  · intro e he hne
    show e ∈ st.history.filter (fun ce => ce.text != t)
    rw [List.mem_filter]
    exact ⟨he, by simpa using hne⟩
  · intro hall
    show st.history.filter (fun ce => ce.text != t) = st.history
    rw [List.filter_eq_self]
    intro a ha
    simpa using hall a ha

/-- C10 counterexample: after loading the records a, a with limit 3, the
very next insertion (of text c) removes only duplicates of its own text and
leaves the pre-existing duplicate pair a, a in place, so Invariant A is not
re-established by the next insert. -/
theorem load_insert_keeps_duplicates :
    ¬ TextsDistinct
        ((insertEntry ⟨"c", 1000⟩
          { history := loadHistory [("a", 0), ("a", 0)], history_limit := 3,
            clipboard_text := "" }).history) := by
  decide

/-- C10 (amended): loading appends the stored records verbatim, neither
deduplicating nor truncating, so immediately after a load the history may
contain duplicate texts and may exceed the limit; the length bound
(Invariant B) is re-established by the next insert, and by a limit change
to a value different from the stored one, while uniqueness (Invariant A)
need not be re-established, since an insert removes only duplicates of its
own text. -/
theorem load_verbatim_invariants_deferred :
    ((loadHistory [(("a" : String), (0 : Int)), ("a", 0)]).length = 2
      ∧ ¬ TextsDistinct (loadHistory [(("a" : String), (0 : Int)), ("a", 0)]))
    ∧ (∀ records : List (String × Int), (loadHistory records).length = records.length)
    ∧ ¬ BoundInv { history := loadHistory [(("a" : String), (0 : Int)), ("a", 0), ("b", 0)],
                   history_limit := 2, clipboard_text := "" }
    ∧ (∀ (st : PluginState) (e : ClipboardEntry), BoundInv (insertEntry e st))
    ∧ (∀ (st : PluginState) (v : Nat), v ≠ st.history_limit →
        BoundInv (setHistoryLimit v st)) :=
  ⟨⟨rfl, by decide⟩, fun records => by simp [loadHistory], by decide,
   fun st e => insertEntry_bound e st,
   fun st v hv => setHistoryLimit_bound_of_ne v st hv⟩
